import Mathlib

/-!
Shallow embedding of src/lib/base.js of create-akos: the template
substitution engine (replaceTemplate), the path alias table (fileMapping),
the file-walk materializer (processFiles), silent question resolution
(askForVariable) and target-directory validation (getTargetDirectory's
validate closure), together with theorems checking the natural-language
specification against them.
-/

namespace CreateAkos

/-- JS regex word character class: ASCII letters, digits and underscore. -/
def isWordChar (c : Char) : Bool := c.isAlphanum || c == '_'

/-- A variable scope is the JS object passed as substitution scope:
an insertion-ordered map from variable name to string value. -/
abbrev Scope := List (String × String)

/-- JS property lookup modelling the pair
of scope.hasOwnProperty(key) and scope[key]. -/
def lookupScope (scope : Scope) (key : String) : Option String :=
  match scope with
  | [] => none
  | (k, v) :: rest => if k == key then some v else lookupScope rest key

/-- Matching of the part of the replaceTemplate regex after the two open
braces: zero or more spaces, a nonempty run of word characters (the
captured key), zero or more spaces, then the two literal close braces.
Returns the captured key, the full matched text (open braces included),
and the remainder of the input after the match. -/
def matchInner (cs0 : List Char) : Option (String × List Char × List Char) :=
  let sp1 := cs0.takeWhile (· == ' ')
  let cs1 := cs0.dropWhile (· == ' ')
  let nm := cs1.takeWhile isWordChar
  let cs2 := cs1.dropWhile isWordChar
  let sp2 := cs2.takeWhile (· == ' ')
  let cs3 := cs2.dropWhile (· == ' ')
  if nm.isEmpty then none
  else
    match cs3 with
    | '}' :: '}' :: rest =>
      some (String.mk nm, '{' :: '{' :: (sp1 ++ nm ++ sp2 ++ ['}', '}']), rest)
    | _ => none

/-- The attempt of the replaceTemplate regex to match its unescaped part at
the head of the character list: the two literal open braces followed by
the interior matched by matchInner. -/
def matchPlaceholder (cs : List Char) : Option (String × List Char × List Char) :=
  match cs with
  | '{' :: '{' :: cs0 => matchInner cs0
  | _ => none

/-- Fuel-indexed scan of content.replace(regex, replacer) in
replaceTemplate: at each position, first the escaped alternative (a
backslash immediately followed by a placeholder — the replacer returns the
matched block minus the leading backslash), then the unescaped alternative
(the replacer returns the scope value when the key is an own property of
the scope, the whole matched block otherwise); when no match starts here,
the character is copied and the scan advances by one.  The fuel only
bounds the recursion; one unit of fuel per input character is enough. -/
def subAuxFuel (scope : Scope) : Nat → List Char → List Char
  | 0, _ => []
  | _ + 1, [] => []
  | fuel + 1, c :: cs =>
    if c = '\\' then
      match matchPlaceholder cs with
      | some (_, con, rest) => con ++ subAuxFuel scope fuel rest
      | none => c :: subAuxFuel scope fuel cs
    else
      match matchPlaceholder (c :: cs) with
      | some (nm, con, rest) =>
        (match lookupScope scope nm with
         | some v => v.data
         | none => con) ++ subAuxFuel scope fuel rest
      | none => c :: subAuxFuel scope fuel cs

/-- The scan of replaceTemplate with exactly enough fuel. -/
def subAux (scope : Scope) (cs : List Char) : List Char :=
  subAuxFuel scope cs.length cs

/-- replaceTemplate of src/lib/base.js: single regex-replace pass over the
content with the escape-aware placeholder pattern. -/
def replaceTemplate (content : String) (scope : Scope) : String :=
  String.mk (subAux scope content.data)

/-- The fileMapping alias table built in the Command constructor. -/
def fileMapping : List (String × String) :=
  [("gitignore", ".gitignore"),
   ("_gitignore", ".gitignore"),
   ("_.gitignore", ".gitignore"),
   ("_package.json", "package.json"),
   ("_.eslintignore", ".eslintignore"),
   ("_.npmignore", ".npmignore")]

/-- The expression this.fileMapping[file] || file of processFiles. -/
def mapFileName (file : String) : String :=
  (lookupScope fileMapping file).getD file

/-- The destination-relative path computed by processFiles:
replaceTemplate applied to the alias-mapped file name under the scope. -/
def destPath (file : String) (locals : Scope) : String :=
  replaceTemplate (mapFileName file) locals

/-- Node Buffer contents as a byte list. -/
abbrev Bytes := List UInt8

/-- A UTF-8 continuation byte. -/
def isUtf8Cont (b : UInt8) : Bool := 0x80 ≤ b && b < 0xC0

/-- Fuel-indexed UTF-8 decoding of a byte list, as content.toString of a
Buffer as utf8 performs it: one-, two-, three- and four-byte sequences by
leading byte, an invalid sequence yielding a replacement character (only
valid UTF-8 is exercised by the theorems below).  One unit of fuel per
byte is enough. -/
def utf8DecodeAux : Nat → List UInt8 → List Char
  | 0, _ => []
  | _ + 1, [] => []
  | fuel + 1, b :: bs =>
    if b < 0x80 then Char.ofNat b.toNat :: utf8DecodeAux fuel bs
    else if 0xC0 ≤ b && b < 0xE0 then
      match bs with
      | b1 :: bs1 =>
        if isUtf8Cont b1 then
          Char.ofNat (((b.toNat - 0xC0) <<< 6) + (b1.toNat - 0x80)) :: utf8DecodeAux fuel bs1
        else Char.ofNat 0xFFFD :: utf8DecodeAux fuel bs
      | [] => Char.ofNat 0xFFFD :: utf8DecodeAux fuel bs
    else if 0xE0 ≤ b && b < 0xF0 then
      match bs with
      | b1 :: b2 :: bs2 =>
        if isUtf8Cont b1 && isUtf8Cont b2 then
          Char.ofNat (((b.toNat - 0xE0) <<< 12) + ((b1.toNat - 0x80) <<< 6) +
            (b2.toNat - 0x80)) :: utf8DecodeAux fuel bs2
        else Char.ofNat 0xFFFD :: utf8DecodeAux fuel bs
      | _ => Char.ofNat 0xFFFD :: utf8DecodeAux fuel bs
    else if 0xF0 ≤ b && b < 0xF8 then
      match bs with
      | b1 :: b2 :: b3 :: bs3 =>
        if isUtf8Cont b1 && isUtf8Cont b2 && isUtf8Cont b3 then
          Char.ofNat (((b.toNat - 0xF0) <<< 18) + ((b1.toNat - 0x80) <<< 12) +
            ((b2.toNat - 0x80) <<< 6) + (b3.toNat - 0x80)) :: utf8DecodeAux fuel bs3
        else Char.ofNat 0xFFFD :: utf8DecodeAux fuel bs
      | _ => Char.ofNat 0xFFFD :: utf8DecodeAux fuel bs
    else Char.ofNat 0xFFFD :: utf8DecodeAux fuel bs

/-- content.toString of a Buffer as utf8. -/
def utf8Decode (b : Bytes) : String :=
  String.mk (utf8DecodeAux b.length b)

/-- The UTF-8 bytes of a string, as fs.writeFileSync stores it. -/
def utf8Encode (s : String) : Bytes :=
  s.data.flatMap String.utf8EncodeChar

/-- Modelled from the spec: the FileClassifier is the external
istextorbinary library, absent from src/; §4.2 describes it as null-byte
and high-bit sniffing heuristics over the bytes already read.  This model
classifies content as text when it has no null byte, and instantiates the
classifier parameter of the materializer in concrete examples. -/
def isTextHeuristic (_path : String) (content : Bytes) : Bool :=
  !(content.contains 0)

/-- The body of the forEach loop of processFiles for one file: the
destination path from the alias table and placeholder substitution, and
the written bytes — the substituted UTF-8 text when the classifier deems
the content text, the unmodified bytes otherwise.  The classifier stands
for the external isTextOrBinary.isTextSync collaborator. -/
def processFile (isText : String → Bytes → Bool) (locals : Scope)
    (file : String) (content : Bytes) : String × Bytes :=
  (destPath file locals,
   if isText file content then utf8Encode (replaceTemplate (utf8Decode content) locals)
   else content)

/-- The writes performed in order by the forEach loop of processFiles over
the file list enumerated by glob, with readFile standing for
fs.readFileSync. -/
def writeActions (files : List String) (readFile : String → Bytes)
    (isText : String → Bytes → Bool) (locals : Scope) : List (String × Bytes) :=
  files.map (fun file => processFile isText locals file (readFile file))

/-- processFiles of src/lib/base.js: the writes of the forEach loop
together with its return value, the glob file list itself. -/
def processFiles (files : List String) (readFile : String → Bytes)
    (isText : String → Bytes → Bool) (locals : Scope) :
    List (String × Bytes) × List String :=
  (writeActions files readFile isText locals, files)

/-- One fs.writeFileSync into the destination tree: an existing file at
the same path is overwritten, otherwise the file is added. -/
def applyWrite (tree : List (String × Bytes)) (w : String × Bytes) :
    List (String × Bytes) :=
  if (tree.map Prod.fst).contains w.1
  then tree.map (fun e => if e.1 == w.1 then w else e)
  else tree ++ [w]

/-- The destination tree after performing a list of writes in order into
an initially empty target directory. -/
def destTree (writes : List (String × Bytes)) : List (String × Bytes) :=
  writes.foldl applyWrite []

/-- A question default as askForVariable distinguishes them: absent, a
literal value, or a function of the scope built so far. -/
inductive QDefault where
  | absent
  | lit (s : String)
  | fn (f : Scope → String)

/-- A QuestionDefinition as consumed by askForVariable: the default and
the optional filter (type, description and choices only feed the
interactive prompt). -/
structure Question where
  default : QDefault
  filter : Option (String → String) := none

/-- The per-key step of the silent branch of askForVariable: a function
default is invoked on the scope built so far, else the literal default is
used, with the empty string as fallback; then the filter, when present,
is applied (the JS falsy-to-empty coercion is the identity on strings,
an empty string staying empty). -/
def silentValue (q : Question) (acc : Scope) : String :=
  let v := match q.default with
    | .absent => ""
    | .lit s => s
    | .fn f => f acc
  match q.filter with
  | some fl => fl v
  | none => v

/-- The keys.reduce of the silent branch of askForVariable, in mapping
order, each step appending the key's computed value to the scope. -/
def askSilent (questions : List (String × Question)) : Scope :=
  questions.foldl (fun acc kq => acc ++ [(kq.1, silentValue kq.2 acc)]) []

/-- path.basename of the target directory with a leading egg- stripped:
the default injected for a name question. -/
def defaultProjectName (targetDir : String) : String :=
  let base := (targetDir.splitOn "/").getLastD ""
  if base.startsWith "egg-" then base.drop 4 else base

/-- The injection in askForVariable of a target-directory-derived default
for a question named name whose default is falsy (absent or the empty
string). -/
def injectNameDefault (targetDir : String) (questions : List (String × Question)) :
    List (String × Question) :=
  questions.map (fun kq =>
    if kq.1 = "name" then
      match kq.2.default with
      | .absent => (kq.1, { kq.2 with default := .lit (defaultProjectName targetDir) })
      | .lit s =>
        if s = "" then (kq.1, { kq.2 with default := .lit (defaultProjectName targetDir) })
        else kq
      | .fn _ => kq
    else kq)

/-- The outcome of the require step (and the subsequent function call and
name-default preparation) of the try block of askForVariable. -/
inductive LoadOutcome where
  | ok (questions : List (String × Question))
  | notFound
  | otherError (msg : String)

/-- The observable result of askForVariable: the resolved scope, the
warnings logged, and the names prompted interactively. -/
structure VarResult where
  scope : Scope
  warnings : List String
  prompts : List String

/-- askForVariable of src/lib/base.js, with the outcome of the require
step given as a parameter, the --silent flag, and inquirer.prompt as an
answers oracle.  A not-found load resolves to the empty scope; any other
load error logs a warning and resolves to the empty scope; the silent
branch computes the scope from defaults and filters with no prompt; the
interactive branch prompts once per question. -/
def askForVariable (targetDir : String) (load : LoadOutcome) (silent : Bool)
    (answers : List (String × Question) → Scope) : VarResult :=
  match load with
  | .notFound => ⟨[], [], []⟩
  | .otherError msg =>
    ⟨[], ["load boilerplate config got trouble, skip and use defaults, " ++ msg], []⟩
  | .ok questions =>
    if silent then ⟨askSilent (injectNameDefault targetDir questions), [], []⟩
    else
      ⟨answers (injectNameDefault targetDir questions), [],
       (injectNameDefault targetDir questions).map Prod.fst⟩

/-- The state of the target path on disk as observed by the validate
closure of getTargetDirectory: missing, an existing non-directory, or a
directory with the listed entry names. -/
inductive PathState where
  | absent
  | file
  | dir (entries : List String)

/-- The outcome of the validate closure: success — recording whether the
directory was created and whether the --force override warning was
logged — or one of its two failure messages. -/
inductive ValidateOutcome where
  | ok (created warned : Bool)
  | failFile
  | failNotEmpty
  deriving DecidableEq

/-- The validate closure of getTargetDirectory: a missing path is created
and passes; an existing non-directory fails; a directory with at least
one entry whose first character is not a dot fails, unless force is set,
in which case it passes with the override warning; otherwise it passes. -/
def validateDir (st : PathState) (force : Bool) : ValidateOutcome :=
  match st with
  | .absent => .ok true false
  | .file => .failFile
  | .dir entries =>
    if (entries.filter (fun n => !(n.data.head? == some '.'))).length > 0 then
      if force then .ok false true else .failNotEmpty
    else .ok false false

/-- The text of a placeholder token: two open braces, interior spaces,
the name, interior spaces, two close braces. -/
def phToken (sp1 nm sp2 : List Char) : List Char :=
  '{' :: '{' :: (sp1 ++ nm ++ sp2 ++ ['}', '}'])

/-- Whether the content contains a backslash directly followed by two
open braces (the escape sequence of the placeholder grammar). -/
def hasEscOpen : List Char → Bool
  | '\\' :: '{' :: '{' :: _ => true
  | _ :: cs => hasEscOpen cs
  | [] => false

/-- Structured content: a sequence of literal segments and placeholder
tokens, used to delimit the contents on which substitution is
idempotent. -/
inductive TItem where
  | lit (s : List Char)
  | ph (sp1 nm sp2 : List Char)

/-- The text of structured content. -/
def renderT : List TItem → List Char
  | [] => []
  | .lit s :: ts => s ++ renderT ts
  | .ph sp1 nm sp2 :: ts => phToken sp1 nm sp2 ++ renderT ts

/-- A literal segment that can start no match: free of backslashes and
open braces. -/
def litOK (s : List Char) : Prop := ∀ c ∈ s, c ≠ '\\' ∧ c ≠ '{'

/-- A well-formed placeholder token: space runs around a nonempty word
name. -/
def phOK (sp1 nm sp2 : List Char) : Prop :=
  (∀ c ∈ sp1, c = ' ') ∧ (∀ c ∈ sp2, c = ' ') ∧ nm ≠ [] ∧ (∀ c ∈ nm, isWordChar c)

/-- Well-formedness of one structured item. -/
def itemOK : TItem → Prop
  | .lit s => litOK s
  | .ph sp1 nm sp2 => phOK sp1 nm sp2

/-- Well-formedness of structured content. -/
def templateOK (ts : List TItem) : Prop := ∀ t ∈ ts, itemOK t

/-- A scope whose values are literal-safe: they contain no backslash and
no open brace. -/
def scopeOK (scope : Scope) : Prop := ∀ kv ∈ scope, litOK kv.2.data

/-- One substitution pass at the level of structured content: resolvable
placeholders become literal values, the rest is unchanged. -/
def substT (scope : Scope) : List TItem → List TItem
  | [] => []
  | .lit s :: ts => .lit s :: substT scope ts
  | .ph sp1 nm sp2 :: ts =>
    match lookupScope scope (String.mk nm) with
    | some v => .lit v.data :: substT scope ts
    | none => .ph sp1 nm sp2 :: substT scope ts

/-- All placeholders of the structured content are unresolvable in the
scope. -/
def unresolvedT (scope : Scope) : List TItem → Prop
  | [] => True
  | .lit _ :: ts => unresolvedT scope ts
  | .ph _ nm _ :: ts => lookupScope scope (String.mk nm) = none ∧ unresolvedT scope ts

instance decLitOK (s : List Char) : Decidable (litOK s) :=
  inferInstanceAs (Decidable (∀ c ∈ s, c ≠ '\\' ∧ c ≠ '{'))

instance decPhOK (sp1 nm sp2 : List Char) : Decidable (phOK sp1 nm sp2) :=
  inferInstanceAs (Decidable ((∀ c ∈ sp1, c = ' ') ∧ (∀ c ∈ sp2, c = ' ') ∧
    nm ≠ [] ∧ (∀ c ∈ nm, isWordChar c)))

instance decItemOK : (t : TItem) → Decidable (itemOK t)
  | .lit s => decLitOK s
  | .ph sp1 nm sp2 => decPhOK sp1 nm sp2

instance decTemplateOK (ts : List TItem) : Decidable (templateOK ts) :=
  inferInstanceAs (Decidable (∀ t ∈ ts, itemOK t))

instance decScopeOK (scope : Scope) : Decidable (scopeOK scope) :=
  inferInstanceAs (Decidable (∀ kv ∈ scope, litOK kv.2.data))

/-- The PNG bytes of the two-file example: the PNG signature, a null byte
and the raw bytes of a placeholder-looking text. -/
def examplePng : Bytes :=
  [0x89, 0x50, 0x4E, 0x47, 0x0D, 0x0A, 0x1A, 0x0A, 0x00] ++ utf8Encode "{{ name }}"

/-- fs.readFileSync for the two-file example template. -/
def exampleRead (f : String) : Bytes :=
  if f = "one.txt" then utf8Encode "Hello {{ name }}" else examplePng

/-- fs.readFileSync for the colliding-alias example template. -/
def exampleReadCollide (f : String) : Bytes :=
  if f = "gitignore" then utf8Encode "a" else utf8Encode "b"

/-- The two questions of the silent-mode example: a with the literal
default base, b with a function default appending x to the value of a. -/
def exampleQuestions : List (String × Question) :=
  [("a", ⟨.lit "base", none⟩),
   ("b", ⟨.fn (fun sc => (lookupScope sc "a").getD "" ++ "x"), none⟩)]

theorem matchInner_append (cs0 : List Char) (nm : String) (con rest : List Char)
    (h : matchInner cs0 = some (nm, con, rest)) :
    '{' :: '{' :: cs0 = con ++ rest ∧ 2 ≤ con.length := by
  simp only [matchInner] at h
  split at h
  · exact absurd h (by simp)
  · split at h
    · rename_i cs3 r heq
      rw [Option.some.injEq, Prod.mk.injEq] at h
      obtain ⟨h1, h2⟩ := h
      rw [Prod.mk.injEq] at h2
      obtain ⟨hcon, hrest⟩ := h2
      subst hcon hrest
      constructor
      · have e1 := List.takeWhile_append_dropWhile (p := (· == ' ')) (l := cs0)
        have e2 := List.takeWhile_append_dropWhile (p := isWordChar)
          (l := cs0.dropWhile (· == ' '))
        have e3 := List.takeWhile_append_dropWhile (p := (· == ' '))
          (l := (cs0.dropWhile (· == ' ')).dropWhile isWordChar)
        conv_lhs => rw [← e1, ← e2, ← e3, heq]
        simp
      · simp
    · exact absurd h (by simp)

theorem matchPlaceholder_shape (cs : List Char) (nm : String) (con rest : List Char)
    (h : matchPlaceholder cs = some (nm, con, rest)) :
    cs = con ++ rest ∧ 2 ≤ con.length := by
  rw [matchPlaceholder.eq_def] at h
  split at h
  · rename_i cs0
    exact matchInner_append cs0 nm con rest h
  · exact absurd h (by simp)

theorem matchPlaceholder_length (cs : List Char) (nm : String) (con rest : List Char)
    (h : matchPlaceholder cs = some (nm, con, rest)) :
    rest.length + 2 ≤ cs.length := by
  obtain ⟨happ, hcon⟩ := matchPlaceholder_shape cs nm con rest h
  have : cs.length = con.length + rest.length := by rw [happ, List.length_append]
  omega

theorem subAuxFuel_congr (scope : Scope) (f1 f2 : Nat) (cs : List Char)
    (h1 : cs.length ≤ f1) (h2 : cs.length ≤ f2) :
    subAuxFuel scope f1 cs = subAuxFuel scope f2 cs := by
  induction f1 generalizing f2 cs with
  | zero =>
    have : cs = [] := List.length_eq_zero.mp (Nat.le_zero.mp h1)
    subst this
    cases f2 <;> simp [subAuxFuel]
  | succ f1 ih =>
    cases cs with
    | nil => cases f2 <;> simp [subAuxFuel]
    | cons c cs =>
      cases f2 with
      | zero => simp at h2
      | succ f2 =>
        simp only [List.length_cons] at h1 h2
        simp only [subAuxFuel]
        split
        · rcases hm : matchPlaceholder cs with _ | ⟨nm, con, rest⟩
          · simp only [hm]
            rw [ih f2 cs (by omega) (by omega)]
          · simp only [hm]
            have := matchPlaceholder_length cs nm con rest hm
            rw [ih f2 rest (by omega) (by omega)]
        · rcases hm : matchPlaceholder (c :: cs) with _ | ⟨nm, con, rest⟩
          · simp only [hm]
            rw [ih f2 cs (by omega) (by omega)]
          · simp only [hm]
            have := matchPlaceholder_length (c :: cs) nm con rest hm
            simp only [List.length_cons] at this
            rw [ih f2 rest (by omega) (by omega)]

theorem subAux_nil (scope : Scope) : subAux scope [] = [] := rfl

theorem subAux_cons_escape (scope : Scope) (cs : List Char) (nm : String)
    (con rest : List Char) (h : matchPlaceholder cs = some (nm, con, rest)) :
    subAux scope ('\\' :: cs) = con ++ subAux scope rest := by
  have hl := matchPlaceholder_length cs nm con rest h
  simp only [subAux, List.length_cons, subAuxFuel, h, ite_true, eq_self_iff_true]
  rw [subAuxFuel_congr scope cs.length rest.length rest (by omega) (by omega)]

theorem subAux_cons_match (scope : Scope) (c : Char) (cs : List Char) (nm : String)
    (con rest : List Char) (hc : c ≠ '\\')
    (h : matchPlaceholder (c :: cs) = some (nm, con, rest)) :
    subAux scope (c :: cs) =
      (match lookupScope scope nm with
       | some v => v.data
       | none => con) ++ subAux scope rest := by
  have hl := matchPlaceholder_length (c :: cs) nm con rest h
  simp only [List.length_cons] at hl
  simp only [subAux, List.length_cons, subAuxFuel, h, if_neg hc]
  rw [subAuxFuel_congr scope cs.length rest.length rest (by omega) (by omega)]

theorem subAux_cons_of_no_match (scope : Scope) (c : Char) (cs : List Char)
    (hesc : c = '\\' → matchPlaceholder cs = none)
    (hun : c ≠ '\\' → matchPlaceholder (c :: cs) = none) :
    subAux scope (c :: cs) = c :: subAux scope cs := by
  simp only [subAux, List.length_cons, subAuxFuel]
  by_cases hc : c = '\\'
  · rw [if_pos hc, hesc hc]
  · rw [if_neg hc, hun hc]

theorem matchPlaceholder_none_of_head (c : Char) (cs : List Char) (hc : c ≠ '{') :
    matchPlaceholder (c :: cs) = none := by
  rw [matchPlaceholder.eq_def]
  split
  · rename_i cs0 heq
    injection heq with h1 h2
    exact absurd h1 hc
  · rfl

theorem subAux_cons_safe (scope : Scope) (c : Char) (cs : List Char)
    (h1 : c ≠ '\\') (h2 : c ≠ '{') :
    subAux scope (c :: cs) = c :: subAux scope cs :=
  subAux_cons_of_no_match scope c cs (fun h => absurd h h1)
    (fun _ => matchPlaceholder_none_of_head c cs h2)

theorem subAux_lit_chunk (scope : Scope) (s cs : List Char) (hs : litOK s) :
    subAux scope (s ++ cs) = s ++ subAux scope cs := by
  induction s with
  | nil => simp
  | cons c s ih =>
    have hc := hs c (List.mem_cons_self c s)
    rw [List.cons_append, subAux_cons_safe scope c (s ++ cs) hc.1 hc.2,
      ih (fun d hd => hs d (List.mem_cons_of_mem c hd))]
    rfl

theorem subAux_lit (scope : Scope) (s : List Char) (hs : litOK s) :
    subAux scope s = s := by
  have h := subAux_lit_chunk scope s [] hs
  simpa [subAux_nil] using h

theorem phToken_append (sp1 nm sp2 rest : List Char) :
    phToken sp1 nm sp2 ++ rest =
      '{' :: '{' :: (sp1 ++ (nm ++ (sp2 ++ '}' :: '}' :: rest))) := by
  simp [phToken]

theorem takeWhile_all_stop (p : Char → Bool) (l1 l2 : List Char)
    (h1 : ∀ c ∈ l1, p c = true) (h2 : l2.takeWhile p = []) :
    (l1 ++ l2).takeWhile p = l1 := by
  rw [List.takeWhile_append_of_pos h1, h2, List.append_nil]

theorem dropWhile_all_stop (p : Char → Bool) (l1 l2 : List Char)
    (h1 : ∀ c ∈ l1, p c = true) (h2 : l2.dropWhile p = l2) :
    (l1 ++ l2).dropWhile p = l2 := by
  rw [List.dropWhile_append_of_pos h1, h2]

theorem matchInner_fire (sp1 nm sp2 rest : List Char) (h : phOK sp1 nm sp2) :
    matchInner (sp1 ++ (nm ++ (sp2 ++ '}' :: '}' :: rest))) =
      some (String.mk nm, phToken sp1 nm sp2, rest) := by
  obtain ⟨hsp1, hsp2, hne, hword⟩ := h
  obtain ⟨n0, nm', rfl⟩ := List.exists_cons_of_ne_nil hne
  have hsp1b : ∀ c ∈ sp1, (c == ' ') = true := fun c hc => by
    rw [hsp1 c hc]
    decide
  have hsp2b : ∀ c ∈ sp2, (c == ' ') = true := fun c hc => by
    rw [hsp2 c hc]
    decide
  have hn0w : isWordChar n0 := hword n0 (List.mem_cons_self n0 nm')
  have hn0 : ¬ ((n0 == ' ') = true) := by
    intro hcon
    rw [beq_iff_eq] at hcon
    subst hcon
    exact absurd hn0w (by decide)
  have hw2 : (sp2 ++ '}' :: '}' :: rest).takeWhile isWordChar = [] := by
    cases sp2 with
    | nil =>
      simp only [List.nil_append]
      exact List.takeWhile_cons_of_neg (by decide)
    | cons s0 sp2' =>
      have : s0 = ' ' := hsp2 s0 (List.mem_cons_self s0 sp2')
      subst this
      exact List.takeWhile_cons_of_neg (by decide)
  have hw2d : (sp2 ++ '}' :: '}' :: rest).dropWhile isWordChar = sp2 ++ '}' :: '}' :: rest := by
    cases sp2 with
    | nil =>
      simp only [List.nil_append]
      exact List.dropWhile_cons_of_neg (by decide)
    | cons s0 sp2' =>
      have : s0 = ' ' := hsp2 s0 (List.mem_cons_self s0 sp2')
      subst this
      exact List.dropWhile_cons_of_neg (by decide)
  have A1 : ((n0 :: nm') ++ (sp2 ++ '}' :: '}' :: rest)).takeWhile (· == ' ') = [] := by
    rw [List.cons_append]
    exact List.takeWhile_cons_of_neg hn0
  have A1d : ((n0 :: nm') ++ (sp2 ++ '}' :: '}' :: rest)).dropWhile (· == ' ') =
      (n0 :: nm') ++ (sp2 ++ '}' :: '}' :: rest) := by
    rw [List.cons_append]
    exact List.dropWhile_cons_of_neg hn0
  have B1 : (sp1 ++ ((n0 :: nm') ++ (sp2 ++ '}' :: '}' :: rest))).takeWhile (· == ' ') = sp1 :=
    takeWhile_all_stop _ _ _ hsp1b A1
  have B2 : (sp1 ++ ((n0 :: nm') ++ (sp2 ++ '}' :: '}' :: rest))).dropWhile (· == ' ') =
      (n0 :: nm') ++ (sp2 ++ '}' :: '}' :: rest) := by
    rw [List.dropWhile_append_of_pos hsp1b, A1d]
  have B3 : ((n0 :: nm') ++ (sp2 ++ '}' :: '}' :: rest)).takeWhile isWordChar = n0 :: nm' :=
    takeWhile_all_stop _ _ _ hword hw2
  have B4 : ((n0 :: nm') ++ (sp2 ++ '}' :: '}' :: rest)).dropWhile isWordChar =
      sp2 ++ '}' :: '}' :: rest :=
    dropWhile_all_stop _ _ _ hword hw2d
  have B5 : (sp2 ++ '}' :: '}' :: rest).takeWhile (· == ' ') = sp2 :=
    takeWhile_all_stop _ _ _ hsp2b (List.takeWhile_cons_of_neg (by decide))
  have B6 : (sp2 ++ '}' :: '}' :: rest).dropWhile (· == ' ') = '}' :: '}' :: rest :=
    dropWhile_all_stop _ _ _ hsp2b (List.dropWhile_cons_of_neg (by decide))
  simp only [matchInner, B2, B3, B4, B5, B6, B1]
  simp [phToken]

theorem matchPlaceholder_fire (sp1 nm sp2 rest : List Char) (h : phOK sp1 nm sp2) :
    matchPlaceholder (phToken sp1 nm sp2 ++ rest) =
      some (String.mk nm, phToken sp1 nm sp2, rest) := by
  rw [phToken_append]
  have hdef : matchPlaceholder ('{' :: '{' :: (sp1 ++ (nm ++ (sp2 ++ '}' :: '}' :: rest)))) =
      matchInner (sp1 ++ (nm ++ (sp2 ++ '}' :: '}' :: rest))) := rfl
  rw [hdef, matchInner_fire sp1 nm sp2 rest h]

theorem subAux_ph (scope : Scope) (sp1 nm sp2 rest : List Char) (h : phOK sp1 nm sp2) :
    subAux scope (phToken sp1 nm sp2 ++ rest) =
      (match lookupScope scope (String.mk nm) with
       | some v => v.data
       | none => phToken sp1 nm sp2) ++ subAux scope rest := by
  have hm := matchPlaceholder_fire sp1 nm sp2 rest h
  have he : phToken sp1 nm sp2 ++ rest =
      '{' :: ('{' :: (sp1 ++ (nm ++ (sp2 ++ '}' :: '}' :: rest)))) := phToken_append ..
  rw [he] at hm ⊢
  exact subAux_cons_match scope '{' _ (String.mk nm) (phToken sp1 nm sp2) rest
    (by decide) hm

theorem subAux_esc_ph (scope : Scope) (sp1 nm sp2 rest : List Char)
    (h : phOK sp1 nm sp2) :
    subAux scope ('\\' :: (phToken sp1 nm sp2 ++ rest)) =
      phToken sp1 nm sp2 ++ subAux scope rest :=
  subAux_cons_escape scope _ (String.mk nm) _ rest (matchPlaceholder_fire sp1 nm sp2 rest h)

theorem lookupScope_mem (scope : Scope) (key v : String)
    (h : lookupScope scope key = some v) : ∃ k, (k, v) ∈ scope := by
  induction scope with
  | nil => simp [lookupScope] at h
  | cons kv rest ih =>
    obtain ⟨k0, v0⟩ := kv
    simp only [lookupScope] at h
    split at h
    · rw [Option.some.injEq] at h
      exact ⟨k0, by rw [← h]; exact List.mem_cons_self _ _⟩
    · obtain ⟨k, hk⟩ := ih h
      exact ⟨k, List.mem_cons_of_mem _ hk⟩

theorem subAux_renderT (scope : Scope) (ts : List TItem) (hts : templateOK ts) :
    subAux scope (renderT ts) = renderT (substT scope ts) := by
  induction ts with
  | nil => simp [renderT, substT, subAux_nil]
  | cons t ts ih =>
    have hts' : templateOK ts := fun u hu => hts u (List.mem_cons_of_mem t hu)
    have ht : itemOK t := hts t (List.mem_cons_self t ts)
    cases t with
    | lit s =>
      simp only [renderT, substT]
      rw [subAux_lit_chunk scope s _ ht, ih hts']
    | ph sp1 nm sp2 =>
      simp only [renderT, substT]
      rw [subAux_ph scope sp1 nm sp2 _ ht]
      rcases hl : lookupScope scope (String.mk nm) with _ | v
      · simp only [hl, renderT]
        rw [ih hts']
      · simp only [hl, renderT]
        rw [ih hts']

theorem substT_templateOK (scope : Scope) (ts : List TItem)
    (hts : templateOK ts) (hsc : scopeOK scope) :
    templateOK (substT scope ts) := by
  induction ts with
  | nil => intro u hu; simp [substT] at hu
  | cons t ts ih =>
    have hts' : templateOK ts := fun u hu => hts u (List.mem_cons_of_mem t hu)
    have ht : itemOK t := hts t (List.mem_cons_self t ts)
    cases t with
    | lit s =>
      intro u hu
      rcases List.mem_cons.mp hu with h | h
      · rw [h]; exact ht
      · exact ih hts' u h
    | ph sp1 nm sp2 =>
      rcases hl : lookupScope scope (String.mk nm) with _ | v
      · intro u hu
        simp only [substT, hl] at hu
        rcases List.mem_cons.mp hu with h | h
        · rw [h]; exact ht
        · exact ih hts' u h
      · intro u hu
        simp only [substT, hl] at hu
        rcases List.mem_cons.mp hu with h | h
        · rw [h]
          obtain ⟨k, hk⟩ := lookupScope_mem scope (String.mk nm) v hl
          exact hsc (k, v) hk
        · exact ih hts' u h

theorem substT_unresolved (scope : Scope) (ts : List TItem) :
    unresolvedT scope (substT scope ts) := by
  induction ts with
  | nil => trivial
  | cons t ts ih =>
    cases t with
    | lit s => exact ih
    | ph sp1 nm sp2 =>
      rcases hl : lookupScope scope (String.mk nm) with _ | v
      · simp only [substT, hl]
        exact ⟨hl, ih⟩
      · simp only [substT, hl]
        exact ih

theorem substT_fix (scope : Scope) (ts : List TItem) (h : unresolvedT scope ts) :
    substT scope ts = ts := by
  induction ts with
  | nil => rfl
  | cons t ts ih =>
    cases t with
    | lit s =>
      simp only [substT]
      rw [ih h]
    | ph sp1 nm sp2 =>
      obtain ⟨hl, h'⟩ := h
      simp only [substT, hl]
      rw [ih h']

theorem subAux_idem_render (scope : Scope) (ts : List TItem)
    (hts : templateOK ts) (hsc : scopeOK scope) :
    subAux scope (subAux scope (renderT ts)) = subAux scope (renderT ts) := by
  rw [subAux_renderT scope ts hts,
    subAux_renderT scope (substT scope ts) (substT_templateOK scope ts hts hsc),
    substT_fix scope (substT scope ts) (substT_unresolved scope ts)]

theorem replaceTemplate_lit (scope : Scope) (s : String) (hs : litOK s.data) :
    replaceTemplate s scope = s := by
  obtain ⟨l⟩ := s
  show String.mk (subAux scope l) = String.mk l
  rw [subAux_lit scope l hs]

/-- C1: the materializer writes one destination file per enumerated file;
a file classified as text is written as the UTF-8 re-encoding of its
decoded text with substitution applied under the scope, any other file is
written byte-identical; on the two-file example template (one.txt with
Hello and a name placeholder, a binary logo.png) under the scope binding
name to World, one.txt comes out as Hello World and logo.png
byte-identical. -/
theorem processFiles_per_file_contents :
    (∀ (files : List String) (readFile : String → Bytes)
        (isText : String → Bytes → Bool) (locals : Scope),
      processFiles files readFile isText locals =
        (files.map (fun file =>
          (destPath file locals,
           if isText file (readFile file) then
             utf8Encode (replaceTemplate (utf8Decode (readFile file)) locals)
           else readFile file)), files)) ∧
    processFiles ["one.txt", "logo.png"] exampleRead isTextHeuristic [("name", "World")] =
      ([("one.txt", utf8Encode "Hello World"), ("logo.png", examplePng)],
       ["one.txt", "logo.png"]) := by
  constructor
  · intro files readFile isText locals
    simp [processFiles, writeActions, processFile]
  · decide

/-- C2 counterexample: the idempotence claim quantified over all scopes
fails: with the scope binding x to a placeholder for y and y to v, the
second pass rewrites the value the first pass substituted; and with the
scope binding x to y and y to w, even placeholder-free values break it on
content nesting braces around a placeholder.  Both contents are free of
the escape sequence. -/
theorem replaceTemplate_not_idempotent :
    (hasEscOpen "{{ x }}".data = false ∧
      replaceTemplate (replaceTemplate "{{ x }}" [("x", "{{ y }}"), ("y", "v")])
          [("x", "{{ y }}"), ("y", "v")] ≠
        replaceTemplate "{{ x }}" [("x", "{{ y }}"), ("y", "v")]) ∧
    (hasEscOpen "{{ {{ x }} }}".data = false ∧
      replaceTemplate (replaceTemplate "{{ {{ x }} }}" [("x", "y"), ("y", "w")])
          [("x", "y"), ("y", "w")] ≠
        replaceTemplate "{{ {{ x }} }}" [("x", "y"), ("y", "w")]) := by
  decide

/-- C2 (amended): substitution is idempotent on content built from
backslash- and open-brace-free literal segments and well-formed
placeholder tokens, over every scope whose values are backslash- and
open-brace-free. -/
theorem replaceTemplate_idempotent (scope : Scope) (ts : List TItem)
    (hts : templateOK ts) (hsc : scopeOK scope) :
    replaceTemplate (replaceTemplate (String.mk (renderT ts)) scope) scope =
      replaceTemplate (String.mk (renderT ts)) scope := by
  show String.mk (subAux scope (subAux scope (renderT ts))) =
    String.mk (subAux scope (renderT ts))
  rw [subAux_idem_render scope ts hts hsc]

/-- Witness for the amended C2 at a concrete template and scope. -/
theorem replaceTemplate_idempotent_witness :
    templateOK [TItem.lit "Hello ".data, TItem.ph [' '] "name".data [' ']] ∧
    scopeOK [("name", "World")] ∧
    replaceTemplate (replaceTemplate
        (String.mk (renderT [TItem.lit "Hello ".data, TItem.ph [' '] "name".data [' ']]))
        [("name", "World")]) [("name", "World")] =
      replaceTemplate
        (String.mk (renderT [TItem.lit "Hello ".data, TItem.ph [' '] "name".data [' ']]))
        [("name", "World")] :=
  ⟨by decide, by decide,
   replaceTemplate_idempotent [("name", "World")]
     [TItem.lit "Hello ".data, TItem.ph [' '] "name".data [' ']] (by decide) (by decide)⟩

/-- C5 counterexample: the alias table has more than the four claimed
entries — the names for the eslint and npm ignore dotfiles are also
remapped rather than passed through. -/
theorem fileMapping_extra_aliases :
    destPath "_.eslintignore" [] = ".eslintignore" ∧
    "_.eslintignore" ≠ ".eslintignore" ∧
    destPath "_.npmignore" [] = ".npmignore" ∧
    "_.npmignore" ≠ ".npmignore" := by
  decide

/-- C5 (amended): the alias table sends gitignore, _gitignore and
_.gitignore to .gitignore, _package.json to package.json, _.eslintignore
to .eslintignore and _.npmignore to .npmignore; every other name passes
through unchanged modulo placeholder substitution of the mapped path. -/
theorem fileMapping_spec (locals : Scope) :
    destPath "gitignore" locals = ".gitignore" ∧
    destPath "_gitignore" locals = ".gitignore" ∧
    destPath "_.gitignore" locals = ".gitignore" ∧
    destPath "_package.json" locals = "package.json" ∧
    destPath "_.eslintignore" locals = ".eslintignore" ∧
    destPath "_.npmignore" locals = ".npmignore" ∧
    ∀ name : String,
      name ∉ ["gitignore", "_gitignore", "_.gitignore", "_package.json",
        "_.eslintignore", "_.npmignore"] →
      destPath name locals = replaceTemplate name locals := by
  refine ⟨?_, ?_, ?_, ?_, ?_, ?_, ?_⟩
  · show replaceTemplate (mapFileName "gitignore") locals = ".gitignore"
    rw [show mapFileName "gitignore" = ".gitignore" from by decide]
    exact replaceTemplate_lit locals _ (by decide)
  · show replaceTemplate (mapFileName "_gitignore") locals = ".gitignore"
    rw [show mapFileName "_gitignore" = ".gitignore" from by decide]
    exact replaceTemplate_lit locals _ (by decide)
  · show replaceTemplate (mapFileName "_.gitignore") locals = ".gitignore"
    rw [show mapFileName "_.gitignore" = ".gitignore" from by decide]
    exact replaceTemplate_lit locals _ (by decide)
  · show replaceTemplate (mapFileName "_package.json") locals = "package.json"
    rw [show mapFileName "_package.json" = "package.json" from by decide]
    exact replaceTemplate_lit locals _ (by decide)
  · show replaceTemplate (mapFileName "_.eslintignore") locals = ".eslintignore"
    rw [show mapFileName "_.eslintignore" = ".eslintignore" from by decide]
    exact replaceTemplate_lit locals _ (by decide)
  · show replaceTemplate (mapFileName "_.npmignore") locals = ".npmignore"
    rw [show mapFileName "_.npmignore" = ".npmignore" from by decide]
    exact replaceTemplate_lit locals _ (by decide)
  · intro name hname
    simp only [List.mem_cons, List.not_mem_nil, or_false, not_or] at hname
    obtain ⟨e1, e2, e3, e4, e5, e6⟩ := hname
    have hn : lookupScope fileMapping name = none := by
      simp only [fileMapping, lookupScope, beq_iff_eq]
      rw [if_neg (fun hh => e1 hh.symm), if_neg (fun hh => e2 hh.symm),
        if_neg (fun hh => e3 hh.symm), if_neg (fun hh => e4 hh.symm),
        if_neg (fun hh => e5 hh.symm), if_neg (fun hh => e6 hh.symm)]
    simp [destPath, mapFileName, hn]

/-- Witness for the amended C5 at a name outside the alias table. -/
theorem fileMapping_spec_witness :
    ("README.md" ∉ ["gitignore", "_gitignore", "_.gitignore", "_package.json",
      "_.eslintignore", "_.npmignore"]) ∧
    destPath "README.md" [] = replaceTemplate "README.md" [] :=
  ⟨by decide, (fileMapping_spec []).2.2.2.2.2.2 "README.md" (by decide)⟩

/-- C6: the silent branch issues no prompt and resolves the scope in
mapping order, a function default receiving the scope built so far, a
filter applying when present and the empty string standing in when no
default exists; on the example of a question a defaulting to base
followed by b whose default appends x to the value of a, the resolved
scope binds a to base and b to basex. -/
theorem askForVariable_silent_defaults :
    (∀ (targetDir : String) (qs : List (String × Question))
        (answers : List (String × Question) → Scope),
      (askForVariable targetDir (.ok qs) true answers).prompts = [] ∧
      (askForVariable targetDir (.ok qs) true answers).scope =
        askSilent (injectNameDefault targetDir qs)) ∧
    (∀ acc : Scope, silentValue ⟨.absent, none⟩ acc = "") ∧
    (askForVariable "proj" (.ok exampleQuestions) true (fun _ => [])).scope =
      [("a", "base"), ("b", "basex")] := by
  refine ⟨fun targetDir qs answers => ⟨rfl, rfl⟩, fun acc => rfl, ?_⟩
  decide

/-- C7: question resolution never propagates a load failure — a not-found
source resolves silently to the empty scope, any other load error logs a
warning and resolves to the empty scope, and neither prompts. -/
theorem askForVariable_load_failure :
    ∀ (targetDir : String) (silent : Bool)
      (answers : List (String × Question) → Scope) (msg : String),
      (askForVariable targetDir .notFound silent answers).scope = [] ∧
      (askForVariable targetDir .notFound silent answers).warnings = [] ∧
      (askForVariable targetDir .notFound silent answers).prompts = [] ∧
      (askForVariable targetDir (.otherError msg) silent answers).scope = [] ∧
      (askForVariable targetDir (.otherError msg) silent answers).warnings ≠ [] ∧
      (askForVariable targetDir (.otherError msg) silent answers).prompts = [] := by
  intro targetDir silent answers msg
  refine ⟨rfl, rfl, rfl, rfl, ?_, rfl⟩
  simp [askForVariable]

/-- C8: target-directory validation passes creating the directory when
the path is missing, passes on an existing empty directory, fails on a
directory with a non-hidden entry unless force is set — in which case it
passes and logs the override warning — and fails on a non-directory for
either value of force. -/
theorem validateDir_spec :
    ∀ (force : Bool) (entries : List String),
      validateDir .absent force = .ok true false ∧
      validateDir (.dir []) force = .ok false false ∧
      ((entries.filter (fun n => !(n.data.head? == some '.'))).length > 0 →
        validateDir (.dir entries) false = .failNotEmpty ∧
        validateDir (.dir entries) true = .ok false true) ∧
      validateDir .file force = .failFile := by
  intro force entries
  refine ⟨rfl, rfl, fun h => ⟨?_, ?_⟩, rfl⟩
  · simp [validateDir, h]
  · simp [validateDir, h]

/-- Witness for C8 at a directory with one non-hidden entry. -/
theorem validateDir_spec_witness :
    (["src"].filter (fun n => !(n.data.head? == some '.'))).length > 0 ∧
    validateDir (.dir ["src"]) false = .failNotEmpty ∧
    validateDir (.dir ["src"]) true = .ok false true :=
  ⟨by decide, ((validateDir_spec true ["src"]).2.2.1 (by decide)).1,
   ((validateDir_spec false ["src"]).2.2.1 (by decide)).2⟩

/-- C9 counterexample: two input files whose aliased destinations
coincide leave a single file in the destination tree — the later write
overwrites the earlier — so the tree holds fewer files than inputs. -/
theorem destTree_collision :
    (destTree (writeActions ["gitignore", "_gitignore"] exampleReadCollide
        isTextHeuristic [])).length = 1 ∧
    ["gitignore", "_gitignore"].length = 2 ∧
    destTree (writeActions ["gitignore", "_gitignore"] exampleReadCollide
        isTextHeuristic []) = [(".gitignore", utf8Encode "b")] := by
  decide

/-- C9 (amended): the materializer performs exactly one write per input
file, in input order, and the destination path of every write is a
function of the source-relative path and the scope alone — unchanged
under any change of file contents or classifier; colliding destination
paths are last-write-wins in the destination tree. -/
theorem writeActions_paths_pure :
    ∀ (files : List String) (r1 r2 : String → Bytes)
      (t1 t2 : String → Bytes → Bool) (locals : Scope),
      (writeActions files r1 t1 locals).length = files.length ∧
      (writeActions files r1 t1 locals).map Prod.fst =
        files.map (fun f => destPath f locals) ∧
      (writeActions files r1 t1 locals).map Prod.fst =
        (writeActions files r2 t2 locals).map Prod.fst := by
  intro files r1 r2 t1 t2 locals
  refine ⟨by simp [writeActions], ?_, ?_⟩
  · simp [writeActions, processFile, List.map_map, Function.comp]
  · simp [writeActions, processFile, List.map_map, Function.comp]

/-- C10: alias renaming matches on the whole source-relative path, so a
path inside a subdirectory is never renamed even when its base name is an
alias key: it maps to its own substituted path. -/
theorem mapFileName_whole_path (p : String) (locals : Scope) (h : '/' ∈ p.data) :
    destPath p locals = replaceTemplate p locals := by
  have e1 : p ≠ "gitignore" := fun he => by subst he; exact absurd h (by decide)
  have e2 : p ≠ "_gitignore" := fun he => by subst he; exact absurd h (by decide)
  have e3 : p ≠ "_.gitignore" := fun he => by subst he; exact absurd h (by decide)
  have e4 : p ≠ "_package.json" := fun he => by subst he; exact absurd h (by decide)
  have e5 : p ≠ "_.eslintignore" := fun he => by subst he; exact absurd h (by decide)
  have e6 : p ≠ "_.npmignore" := fun he => by subst he; exact absurd h (by decide)
  have hn : lookupScope fileMapping p = none := by
    simp only [fileMapping, lookupScope, beq_iff_eq]
    rw [if_neg (fun hh => e1 hh.symm), if_neg (fun hh => e2 hh.symm),
      if_neg (fun hh => e3 hh.symm), if_neg (fun hh => e4 hh.symm),
      if_neg (fun hh => e5 hh.symm), if_neg (fun hh => e6 hh.symm)]
  simp [destPath, mapFileName, hn]

/-- Witness for C10 at a subdirectory path whose base name is an alias
key. -/
theorem mapFileName_whole_path_witness :
    ('/' ∈ "conf/gitignore".data) ∧
    destPath "conf/gitignore" [] = replaceTemplate "conf/gitignore" [] :=
  ⟨by decide, mapFileName_whole_path "conf/gitignore" [] (by decide)⟩

theorem matchInner_chars (cs0 : List Char) (nm : String) (con rest : List Char)
    (h : matchInner cs0 = some (nm, con, rest)) :
    ∃ s1 n s2, nm = String.mk n ∧ con = phToken s1 n s2 ∧
      (∀ c ∈ s1, (c == ' ') = true) ∧
      (∀ c ∈ s2, (c == ' ') = true) ∧ n ≠ [] ∧ (∀ c ∈ n, isWordChar c) := by
  simp only [matchInner] at h
  split at h
  · exact absurd h (by simp)
  · rename_i hne
    split at h
    · rw [Option.some.injEq, Prod.mk.injEq] at h
      obtain ⟨h1, h2⟩ := h
      rw [Prod.mk.injEq] at h2
      obtain ⟨hcon, hrest⟩ := h2
      refine ⟨_, _, _, h1.symm, hcon.symm, ?_, ?_, ?_, ?_⟩
      · exact fun c hc => List.mem_takeWhile_imp (p := fun x => x == ' ') hc
      · exact fun c hc => List.mem_takeWhile_imp (p := fun x => x == ' ') hc
      · intro h0
        exact hne (by rw [h0]; rfl)
      · exact fun c hc => List.mem_takeWhile_imp (p := isWordChar) hc
    · exact absurd h (by simp)

theorem matchPlaceholder_con_shape (cs : List Char) (nm : String) (con rest : List Char)
    (h : matchPlaceholder cs = some (nm, con, rest)) :
    ∃ body, con = '{' :: '{' :: body ∧ '{' ∉ body ∧ 3 ≤ con.length ∧ '\\' ∉ con := by
  rw [matchPlaceholder.eq_def] at h
  split at h
  · rename_i cs0
    obtain ⟨s1, n, s2, hnm, hcon, hs1, hs2, hne, hw⟩ := matchInner_chars cs0 nm con rest h
    refine ⟨s1 ++ n ++ s2 ++ ['}', '}'], hcon, ?_, ?_, ?_⟩
    · intro hm
      simp only [List.mem_append, List.mem_cons, List.not_mem_nil, or_false] at hm
      rcases hm with ((hm | hm) | hm) | hm
      · exact absurd (hs1 _ hm) (by decide)
      · exact absurd (hw _ hm) (by decide)
      · exact absurd (hs2 _ hm) (by decide)
      · exact absurd hm (by decide)
    · rw [hcon]
      simp only [phToken, List.length_cons, List.length_append, List.length_nil]
      omega
    · intro hm
      rw [hcon] at hm
      simp only [phToken, List.mem_cons, List.mem_append, List.not_mem_nil,
        or_false] at hm
      rcases hm with hm | hm | ((hm | hm) | hm) | hm
      · exact absurd hm (by decide)
      · exact absurd hm (by decide)
      · exact absurd (hs1 _ hm) (by decide)
      · exact absurd (hw _ hm) (by decide)
      · exact absurd (hs2 _ hm) (by decide)
      · exact absurd hm (by decide)
  · exact absurd h (by simp)

theorem split_at_marker (x : Char) (con rest l1 l2 : List Char)
    (heq : con ++ rest = l1 ++ x :: l2) (hx : x ∉ con) :
    ∃ l1x, l1 = con ++ l1x ∧ rest = l1x ++ x :: l2 := by
  induction con generalizing l1 with
  | nil => exact ⟨l1, rfl, heq⟩
  | cons c con ih =>
    cases l1 with
    | nil =>
      rw [List.nil_append, List.cons_append] at heq
      injection heq with h1 h2
      subst h1
      exact absurd (List.mem_cons_self _ _) hx
    | cons a l1 =>
      rw [List.cons_append, List.cons_append] at heq
      injection heq with h1 h2
      subst h1
      have hx' : x ∉ con := fun hm => hx (List.mem_cons_of_mem _ hm)
      obtain ⟨l1x, e1, e2⟩ := ih l1 h2 hx'
      exact ⟨l1x, by rw [e1, List.cons_append], e2⟩

theorem split_at_token (con rest l1 t body : List Char)
    (hcon : con = '{' :: '{' :: body) (hbody : '{' ∉ body) (hlen : 3 ≤ con.length)
    (heq : con ++ rest = l1 ++ '{' :: '{' :: t) (hl1 : l1 ≠ []) :
    ∃ l1x, l1 = con ++ l1x ∧ rest = l1x ++ '{' :: '{' :: t := by
  subst hcon
  cases l1 with
  | nil => exact absurd rfl hl1
  | cons a l1 =>
    simp only [List.cons_append] at heq
    injection heq with ha heq2
    subst ha
    cases l1 with
    | nil =>
      simp only [List.nil_append] at heq2
      injection heq2 with hb heq3
      cases body with
      | nil => simp at hlen
      | cons b body' =>
        rw [List.cons_append] at heq3
        injection heq3 with hb2 heq4
        subst hb2
        exact absurd (List.mem_cons_self _ _) hbody
    | cons b l1 =>
      injection heq2 with hb heq3
      subst hb
      obtain ⟨l1x, hA, hB⟩ := split_at_marker '{' body rest l1 ('{' :: t) heq3 hbody
      exact ⟨l1x, by rw [hA]; simp, hB⟩

theorem matchPlaceholder_determines (cs : List Char) (nm : String)
    (con rest : List Char) (h : matchPlaceholder cs = some (nm, con, rest))
    (X : List Char) :
    matchPlaceholder (con ++ X) = some (nm, con, X) := by
  rw [matchPlaceholder.eq_def] at h
  split at h
  · rename_i cs0
    obtain ⟨s1, n, s2, hnm, hcon, hs1, hs2, hne, hw⟩ := matchInner_chars cs0 nm con rest h
    have hph : phOK s1 n s2 := by
      refine ⟨fun c hc => ?_, fun c hc => ?_, hne, hw⟩
      · have hb := hs1 c hc
        rwa [beq_iff_eq] at hb
      · have hb := hs2 c hc
        rwa [beq_iff_eq] at hb
    rw [hcon, hnm]
    exact matchPlaceholder_fire s1 n s2 X hph
  · exact absurd h (by simp)

theorem matchPlaceholder_none_of_append (mid B : List Char)
    (h : matchPlaceholder (mid ++ B) = none) :
    matchPlaceholder mid = none := by
  rcases hm : matchPlaceholder mid with _ | ⟨n0, con0, rest0⟩
  · rfl
  · obtain ⟨hsplit, hlen2⟩ := matchPlaceholder_shape _ _ _ _ hm
    have hdet := matchPlaceholder_determines _ _ _ _ hm (rest0 ++ B)
    rw [← List.append_assoc, ← hsplit] at hdet
    rw [hdet] at h
    exact absurd h (by simp)

theorem subAux_escape_anywhere (scope : Scope) (sp1 nm sp2 suf : List Char)
    (hph : phOK sp1 nm sp2) (pre : List Char) :
    subAux scope (pre ++ '\\' :: (phToken sp1 nm sp2 ++ suf)) =
      subAux scope pre ++ phToken sp1 nm sp2 ++ subAux scope suf := by
  suffices H : ∀ (k : Nat) (pre : List Char), pre.length ≤ k →
      subAux scope (pre ++ '\\' :: (phToken sp1 nm sp2 ++ suf)) =
        subAux scope pre ++ phToken sp1 nm sp2 ++ subAux scope suf from
    H pre.length pre (Nat.le_refl _)
  intro k
  induction k with
  | zero =>
    intro pre hpre
    have h0 : pre = [] := List.length_eq_zero.mp (Nat.le_zero.mp hpre)
    subst h0
    rw [List.nil_append, subAux_esc_ph scope sp1 nm sp2 suf hph]
    simp [subAux_nil]
  | succ k ih =>
    intro pre hpre
    cases pre with
    | nil =>
      rw [List.nil_append, subAux_esc_ph scope sp1 nm sp2 suf hph]
      simp [subAux_nil]
    | cons c pre =>
      simp only [List.length_cons] at hpre
      rw [List.cons_append]
      by_cases hc : c = '\\'
      · subst hc
        rcases hm : matchPlaceholder (pre ++ '\\' :: (phToken sp1 nm sp2 ++ suf)) with
          _ | ⟨n1, con1, rest1⟩
        · have hmid : matchPlaceholder pre = none :=
            matchPlaceholder_none_of_append pre _ hm
          rw [subAux_cons_of_no_match scope '\\' _ (fun _ => hm)
              (fun hne => absurd rfl hne),
            subAux_cons_of_no_match scope '\\' pre (fun _ => hmid)
              (fun hne => absurd rfl hne),
            ih pre (by omega)]
          simp
        · obtain ⟨body, hshape, hbody, hlen3, hnb⟩ :=
            matchPlaceholder_con_shape _ _ _ _ hm
          obtain ⟨hsplit, hlen2⟩ := matchPlaceholder_shape _ _ _ _ hm
          obtain ⟨l1x, hA, hB⟩ := split_at_marker '\\' con1 rest1 pre
            (phToken sp1 nm sp2 ++ suf) hsplit.symm hnb
          have hlx : l1x.length ≤ k := by
            have hlen := congrArg List.length hA
            simp only [List.length_append] at hlen
            omega
          have hdet := matchPlaceholder_determines _ _ _ _ hm l1x
          rw [subAux_cons_escape scope _ n1 con1 rest1 hm, hB, ih l1x hlx, hA,
            subAux_cons_escape scope _ n1 con1 l1x hdet]
          simp [List.append_assoc]
      · rcases hm : matchPlaceholder (c :: (pre ++ '\\' :: (phToken sp1 nm sp2 ++ suf))) with
          _ | ⟨n1, con1, rest1⟩
        · have hmid : matchPlaceholder (c :: pre) = none := by
            refine matchPlaceholder_none_of_append (c :: pre)
              ('\\' :: (phToken sp1 nm sp2 ++ suf)) ?_
            rw [List.cons_append]
            exact hm
          rw [subAux_cons_of_no_match scope c _ (fun h => absurd h hc) (fun _ => hm),
            subAux_cons_of_no_match scope c pre (fun h => absurd h hc) (fun _ => hmid),
            ih pre (by omega)]
          simp
        · obtain ⟨body, hshape, hbody, hlen3, hnb⟩ :=
            matchPlaceholder_con_shape _ _ _ _ hm
          obtain ⟨hsplit, hlen2⟩ := matchPlaceholder_shape _ _ _ _ hm
          have hsplit2 : con1 ++ rest1 = (c :: pre) ++ '\\' :: (phToken sp1 nm sp2 ++ suf) := by
            rw [← hsplit]
            simp
          obtain ⟨l1x, hA, hB⟩ := split_at_marker '\\' con1 rest1 (c :: pre)
            (phToken sp1 nm sp2 ++ suf) hsplit2 hnb
          have hlx : l1x.length ≤ k := by
            have hlen := congrArg List.length hA
            simp only [List.length_cons, List.length_append] at hlen
            omega
          have hdet := matchPlaceholder_determines _ _ _ _ hm l1x
          have hform : con1 ++ l1x = '{' :: (('{' :: body) ++ l1x) := by
            rw [hshape]
            simp
          rw [hform] at hdet
          rw [subAux_cons_match scope c _ n1 con1 rest1 hc hm, hB, ih l1x hlx, hA, hform,
            subAux_cons_match scope '{' (('{' :: body) ++ l1x) n1 con1 l1x (by decide) hdet]
          simp [List.append_assoc]

theorem subAux_unresolved_anywhere (scope : Scope) (sp1 nm sp2 suf : List Char)
    (hph : phOK sp1 nm sp2) (hlk : lookupScope scope (String.mk nm) = none)
    (pre : List Char) :
    ∃ preOut, subAux scope (pre ++ (phToken sp1 nm sp2 ++ suf)) =
      preOut ++ phToken sp1 nm sp2 ++ subAux scope suf := by
  suffices H : ∀ (k : Nat) (pre : List Char), pre.length ≤ k →
      ∃ preOut, subAux scope (pre ++ (phToken sp1 nm sp2 ++ suf)) =
        preOut ++ phToken sp1 nm sp2 ++ subAux scope suf from
    H pre.length pre (Nat.le_refl _)
  have base : ∃ preOut, subAux scope ([] ++ (phToken sp1 nm sp2 ++ suf)) =
      preOut ++ phToken sp1 nm sp2 ++ subAux scope suf := by
    refine ⟨[], ?_⟩
    rw [List.nil_append, subAux_ph scope sp1 nm sp2 suf hph, hlk]
    simp
  intro k
  induction k with
  | zero =>
    intro pre hpre
    have h0 : pre = [] := List.length_eq_zero.mp (Nat.le_zero.mp hpre)
    subst h0
    exact base
  | succ k ih =>
    intro pre hpre
    cases pre with
    | nil => exact base
    | cons c pre =>
      simp only [List.length_cons] at hpre
      rw [List.cons_append]
      by_cases hc : c = '\\'
      · subst hc
        rcases hm : matchPlaceholder (pre ++ (phToken sp1 nm sp2 ++ suf)) with
          _ | ⟨n1, con1, rest1⟩
        · rw [subAux_cons_of_no_match scope '\\' _ (fun _ => hm)
            (fun hne => absurd rfl hne)]
          obtain ⟨preOut, hpo⟩ := ih pre (by omega)
          refine ⟨'\\' :: preOut, ?_⟩
          rw [hpo]
          simp
        · rw [subAux_cons_escape scope _ n1 con1 rest1 hm]
          cases pre with
          | nil =>
            rw [List.nil_append] at hm
            rw [matchPlaceholder_fire sp1 nm sp2 suf hph] at hm
            rw [Option.some.injEq, Prod.mk.injEq] at hm
            obtain ⟨h1, h2⟩ := hm
            rw [Prod.mk.injEq] at h2
            obtain ⟨hcon, hrest⟩ := h2
            refine ⟨[], ?_⟩
            rw [← hcon, ← hrest]
            simp
          | cons a pre =>
            obtain ⟨body, hshape, hbody, hlen3, hnb⟩ :=
              matchPlaceholder_con_shape _ _ _ _ hm
            obtain ⟨hsplit, hlen2⟩ := matchPlaceholder_shape _ _ _ _ hm
            have hsplit2 : con1 ++ rest1 =
                (a :: pre) ++ '{' :: '{' :: (sp1 ++ (nm ++ (sp2 ++ '}' :: '}' :: suf))) := by
              rw [← hsplit, phToken_append]
            obtain ⟨l1x, hA, hB⟩ := split_at_token con1 rest1 (a :: pre) _ body
              hshape hbody hlen3 hsplit2 (by simp)
            simp only [List.length_cons] at hpre
            have hlx : l1x.length ≤ k := by
              have := congrArg List.length hA
              simp only [List.length_cons, List.length_append] at this
              omega
            obtain ⟨preOut, hpo⟩ := ih l1x hlx
            rw [hB, ← phToken_append, hpo]
            refine ⟨con1 ++ preOut, ?_⟩
            simp [List.append_assoc]
      · rcases hm : matchPlaceholder (c :: (pre ++ (phToken sp1 nm sp2 ++ suf))) with
          _ | ⟨n1, con1, rest1⟩
        · rw [subAux_cons_of_no_match scope c _ (fun h => absurd h hc) (fun _ => hm)]
          obtain ⟨preOut, hpo⟩ := ih pre (by omega)
          refine ⟨c :: preOut, ?_⟩
          rw [hpo]
          simp
        · rw [subAux_cons_match scope c _ n1 con1 rest1 hc hm]
          obtain ⟨body, hshape, hbody, hlen3, hnb⟩ :=
            matchPlaceholder_con_shape _ _ _ _ hm
          obtain ⟨hsplit, hlen2⟩ := matchPlaceholder_shape _ _ _ _ hm
          have hsplit2 : con1 ++ rest1 =
              (c :: pre) ++ '{' :: '{' :: (sp1 ++ (nm ++ (sp2 ++ '}' :: '}' :: suf))) := by
            rw [← hsplit, List.cons_append, phToken_append]
          obtain ⟨l1x, hA, hB⟩ := split_at_token con1 rest1 (c :: pre) _ body
            hshape hbody hlen3 hsplit2 (by simp)
          have hlx : l1x.length ≤ k := by
            have := congrArg List.length hA
            simp only [List.length_cons, List.length_append] at this
            omega
          obtain ⟨preOut, hpo⟩ := ih l1x hlx
          rw [hB, ← phToken_append, hpo]
          refine ⟨(match lookupScope scope n1 with
            | some v => v.data
            | none => con1) ++ preOut, ?_⟩
          simp [List.append_assoc]

/-- C3: a placeholder immediately preceded by a single backslash escape
marker, at any position in the content and under every scope, is left
verbatim in the output with the marker stripped and no substitution
performed: the output is exactly the substitution of the prefix, then the
placeholder token itself with no marker, then the substitution of the
suffix; in particular substitution of the escaped x placeholder under x
bound to v yields the placeholder text itself. -/
theorem replaceTemplate_escaped_verbatim :
    (∀ (scope : Scope) (pre sp1 nm sp2 suf : List Char), phOK sp1 nm sp2 →
      replaceTemplate (String.mk (pre ++ '\\' :: (phToken sp1 nm sp2 ++ suf))) scope =
        String.mk (subAux scope pre ++ phToken sp1 nm sp2 ++ subAux scope suf)) ∧
    replaceTemplate "\\{{ x }}" [("x", "v")] = "{{ x }}" := by
  constructor
  · intro scope pre sp1 nm sp2 suf hph
    exact congrArg String.mk (subAux_escape_anywhere scope sp1 nm sp2 suf hph pre)
  · decide

/-- Witness for C3 at a non-initial escaped x placeholder under x bound
to v. -/
theorem replaceTemplate_escaped_verbatim_witness :
    phOK [' '] ['x'] [' '] ∧
    replaceTemplate (String.mk (['a'] ++ '\\' :: (phToken [' '] ['x'] [' '] ++ [])))
        [("x", "v")] =
      String.mk (subAux [("x", "v")] ['a'] ++ phToken [' '] ['x'] [' '] ++
        subAux [("x", "v")] []) :=
  ⟨by decide,
   replaceTemplate_escaped_verbatim.1 [("x", "v")] ['a'] [' '] ['x'] [' '] [] (by decide)⟩

/-- C4: a non-escaped placeholder whose name is not a key of the scope,
at any position in the content, is left verbatim — the full matched token
including braces — and never replaced by the empty string; in particular
substitution of the x placeholder under the empty scope yields the
placeholder itself. -/
theorem replaceTemplate_unknown_verbatim :
    (∀ (scope : Scope) (pre sp1 nm sp2 suf : List Char), phOK sp1 nm sp2 →
      lookupScope scope (String.mk nm) = none →
      ∃ preOut,
        replaceTemplate (String.mk (pre ++ (phToken sp1 nm sp2 ++ suf))) scope =
          String.mk (preOut ++ phToken sp1 nm sp2 ++ subAux scope suf)) ∧
    replaceTemplate "{{ x }}" [] = "{{ x }}" := by
  constructor
  · intro scope pre sp1 nm sp2 suf hph hlk
    obtain ⟨preOut, hpo⟩ := subAux_unresolved_anywhere scope sp1 nm sp2 suf hph hlk pre
    exact ⟨preOut, congrArg String.mk hpo⟩
  · decide

/-- Witness for C4 at the x placeholder under a scope without the key x. -/
theorem replaceTemplate_unknown_verbatim_witness :
    phOK [' '] ['x'] [' '] ∧
    lookupScope [("y", "v")] (String.mk ['x']) = none ∧
    ∃ preOut,
      replaceTemplate (String.mk ([] ++ (phToken [' '] ['x'] [' '] ++ [])))
          [("y", "v")] =
        String.mk (preOut ++ phToken [' '] ['x'] [' '] ++ subAux [("y", "v")] []) :=
  ⟨by decide, by decide,
   replaceTemplate_unknown_verbatim.1 [("y", "v")] [] [' '] ['x'] [' '] []
     (by decide) (by decide)⟩

end CreateAkos
